import Mathlib

/-!
Verification development for the `omd_migrate` repository: an exporter that
writes OpenMetadata entities to NDJSON files (`src/export.py`) and an importer
that reads them back and re-creates the entities (`src/import.py`).

The embedding models
* the JSON value fragment produced by `json.dump(entity, f, ensure_ascii=False)`
  on parsed-JSON data (null, booleans, arbitrary-precision integers, strings,
  arrays, string-keyed objects; floats are outside the model),
* the serializer (`json.dump` with its default separators `", "` and `": "`)
  and the line-oriented parser (`json.loads`) as executable Lean functions,
* `_write_ndjson` / `_load_ndjson` as functions on file contents
  (lists of characters),
* `_filter_entity_fields`, `_import_entity`, `_import_entity_type` and
  `_apply_env_overrides` from `src/import.py`,
* the entity-selection and statistics logic of `export_all` /
  `_export_entity_type` from `src/export.py`, with the remote SDK calls and the
  file system as explicit oracle parameters.
-/

namespace OmdMigrate

/-- The JSON values this development manipulates: the image of `json.loads` on
the integer fragment of JSON (Python floats are not modelled).  Object fields
keep their insertion order, as Python dicts do. -/
inductive Json where
  | null : Json
  | bool (b : Bool) : Json
  | num (i : Int) : Json
  | str (s : List Char) : Json
  | arr (elems : List Json) : Json
  | obj (pairs : List (List Char × Json)) : Json

instance : Inhabited Json := ⟨Json.null⟩

/-- A parsed JSON object: what one line of an entity file decodes to. -/
abbrev Record := List (List Char × Json)

mutual

/-- Structural node count of a JSON value, used as parser fuel. -/
def jsize : Json → Nat
  | .null => 1
  | .bool _ => 1
  | .num _ => 1
  | .str _ => 1
  | .arr l => 1 + lsize l
  | .obj ps => 1 + psize ps

/-- Fuel needed by the array-items loop. -/
def lsize : List Json → Nat
  | [] => 0
  | v :: t => 1 + jsize v + lsize t

/-- Fuel needed by the object-pairs loop. -/
def psize : List (List Char × Json) → Nat
  | [] => 0
  | (_, v) :: t => 1 + jsize v + psize t

end

/-- No duplicate keys in a key list (the invariant every Python dict obeys). -/
def keysNodup : List (List Char) → Bool
  | [] => true
  | k :: t => !(t.contains k) && keysNodup t

mutual

/-- Well-formedness of a JSON value as the image of a Python object: every
object in it has pairwise distinct keys (a Python dict cannot hold two equal
keys). -/
def WFb : Json → Bool
  | .null => true
  | .bool _ => true
  | .num _ => true
  | .str _ => true
  | .arr l => WFbList l
  | .obj ps => keysNodup (ps.map Prod.fst) && WFbPairs ps

/-- All members of an array are well formed. -/
def WFbList : List Json → Bool
  | [] => true
  | v :: t => WFb v && WFbList t

/-- All values of an object are well formed. -/
def WFbPairs : List (List Char × Json) → Bool
  | [] => true
  | (_, v) :: t => WFb v && WFbPairs t

end

/-- Lowercase hexadecimal digit, as produced by Python's `'\\u%04x'` formatting
in `json.encoder`. -/
def hexDig (n : Nat) : Char :=
  if n < 10 then Char.ofNat (48 + n) else Char.ofNat (87 + n)

/-- How `json.dump(..., ensure_ascii=False)` renders one character inside a
string literal: `ESCAPE_DCT` of `json/encoder.py` (short escapes for the
two-character escapes, `\\u00xx` for the remaining control characters), every
other character verbatim. -/
def escapeChar (c : Char) : List Char :=
  if c = '\\' then ['\\', '\\']
  else if c = '"' then ['\\', '"']
  else if c = '\x08' then ['\\', 'b']
  else if c = '\t' then ['\\', 't']
  else if c = '\n' then ['\\', 'n']
  else if c = '\x0c' then ['\\', 'f']
  else if c = '\r' then ['\\', 'r']
  else if c.toNat < 32 then
    ['\\', 'u', '0', '0', hexDig (c.toNat / 16), hexDig (c.toNat % 16)]
  else [c]

/-- Escape a whole string body (no surrounding quotes). -/
def escString : List Char → List Char
  | [] => []
  | c :: t => escapeChar c ++ escString t

/-- Decimal digits of `n`, least significant first. -/
def natDigitsRev (n : Nat) : List Char :=
  if h : n < 10 then [Char.ofNat (48 + n)]
  else Char.ofNat (48 + n % 10) :: natDigitsRev (n / 10)
  decreasing_by exact Nat.div_lt_self (by omega) (by omega)

/-- Decimal rendering of a natural number, as Python's `repr` writes it. -/
def serNat (n : Nat) : List Char := (natDigitsRev n).reverse

/-- Decimal rendering of an integer, as Python's `repr` writes it. -/
def serInt (i : Int) : List Char :=
  if i < 0 then '-' :: serNat i.natAbs else serNat i.toNat

mutual

/-- `json.dumps` of a value with the default separators `", "` / `": "` and
`ensure_ascii=False`, exactly as `_write_ndjson` serializes one entity. -/
def serVal : Json → List Char
  | .null => ['n', 'u', 'l', 'l']
  | .num i => serInt i
  | .bool true => ['t', 'r', 'u', 'e']
  | .str s => '"' :: escString s ++ ['"']
  | .bool false => ['f', 'a', 'l', 's', 'e']
  | .arr l => '[' :: serItems l ++ [']']
  | .obj ps => '{' :: serPairs ps ++ ['}']

/-- Array items joined by `", "`. -/
def serItems : List Json → List Char
  | [] => []
  | [v] => serVal v
  | v :: w :: t => serVal v ++ ',' :: ' ' :: serItems (w :: t)

/-- Object pairs `"key": value` joined by `", "`. -/
def serPairs : List (List Char × Json) → List Char
  | [] => []
  | [(k, v)] => '"' :: escString k ++ '"' :: ':' :: ' ' :: serVal v
  | (k, v) :: p :: t =>
      '"' :: escString k ++ '"' :: ':' :: ' ' :: serVal v
        ++ ',' :: ' ' :: serPairs (p :: t)

end

/-- The whitespace characters `json.decoder` skips between tokens
(`WHITESPACE_STR = ' \\t\\n\\r'`). -/
def isJsonWs (c : Char) : Bool :=
  c = ' ' || c = '\t' || c = '\n' || c = '\r'

/-- Skip JSON inter-token whitespace. -/
def skipWs (s : List Char) : List Char := s.dropWhile isJsonWs

/-- Value of one hexadecimal digit, both cases accepted (`int(esc, 16)` on a
strictly-hexadecimal escape body). -/
def hexVal (c : Char) : Option Nat :=
  if 48 ≤ c.toNat ∧ c.toNat ≤ 57 then some (c.toNat - 48)
  else if 97 ≤ c.toNat ∧ c.toNat ≤ 102 then some (c.toNat - 87)
  else if 65 ≤ c.toNat ∧ c.toNat ≤ 70 then some (c.toNat - 55)
  else none

/-- The two-character escapes `json/decoder.py` accepts (its `BACKSLASH`
table). -/
def escDecode (e : Char) : Option Char :=
  if e = '"' then some '"'
  else if e = '\\' then some '\\'
  else if e = '/' then some '/'
  else if e = 'b' then some '\x08'
  else if e = 'f' then some '\x0c'
  else if e = 'n' then some '\n'
  else if e = 'r' then some '\r'
  else if e = 't' then some '\t'
  else none

/-- Scan a JSON string body after its opening quote, as `scanstring` does in
strict mode: raw control characters are rejected, `\\uXXXX` must name a scalar
value (a Lean `Char` cannot hold the lone surrogates Python strings admit).
Returns the decoded characters and the input after the closing quote. -/
def parseStringBody : List Char → Option (List Char × List Char)
  | [] => none
  | c :: rest =>
    if c = '"' then some ([], rest)
    else if c = '\\' then
      match rest with
      | [] => none
      | e :: rest2 =>
        if e = 'u' then
          match rest2 with
          | a :: b :: c2 :: d :: rest3 =>
            match hexVal a, hexVal b, hexVal c2, hexVal d with
            | some ha, some hb, some hc, some hd =>
              let code := ((ha * 16 + hb) * 16 + hc) * 16 + hd
              if code < 55296 ∨ (57343 < code ∧ code < 1114112) then
                match parseStringBody rest3 with
                | some (s, r) => some (Char.ofNat code :: s, r)
                | none => none
              else none
            | _, _, _, _ => none
          | _ => none
        else
          match escDecode e with
          | some dc =>
            match parseStringBody rest2 with
            | some (s, r) => some (dc :: s, r)
            | none => none
          | none => none
    else if c.toNat < 32 then none
    else
      match parseStringBody rest with
      | some (s, r) => some (c :: s, r)
      | none => none

/-- Numeric value of a list of decimal digit characters. -/
def digitsVal (ds : List Char) : Nat :=
  ds.foldl (fun a c => a * 10 + (c.toNat - 48)) 0

/-- The unsigned part of the scanner's number regular expression,
`(0|[1-9][0-9]*)`: a lone zero, or a nonzero digit followed by digits. -/
def parseNumCore : List Char → Option (Nat × List Char)
  | [] => none
  | c :: t =>
    if c = '0' then some (0, t)
    else if c.isDigit then
      some (digitsVal (c :: t.takeWhile Char.isDigit), t.dropWhile Char.isDigit)
    else none

/-- No fraction or exponent part follows.  When one does, Python's scanner
matches it and produces a float, which is outside this model, so the model
treats it as unparseable. -/
def noFracExp : List Char → Bool
  | '.' :: _ => false
  | 'e' :: _ => false
  | 'E' :: _ => false
  | _ => true

/-- Scan a JSON number, following the integer alternative of the scanner's
`NUMBER_RE` (`-?(0|[1-9][0-9]*)`): an optional minus sign, then the unsigned
part. -/
def parseNum (s : List Char) : Option (Int × List Char) :=
  match s with
  | '-' :: t =>
    match parseNumCore t with
    | some (n, r) => if noFracExp r then some (-(n : Int), r) else none
    | none => none
  | _ =>
    match parseNumCore s with
    | some (n, r) => if noFracExp r then some ((n : Int), r) else none
    | none => none

/-- Insert into an association list with Python `dict` assignment semantics:
an existing key keeps its position and takes the new value, a new key is
appended. -/
def setKey : List (List Char × Json) → List Char → Json → List (List Char × Json)
  | [], k, v => [(k, v)]
  | (k', v') :: t, k, v =>
      if k' = k then (k, v) :: t else (k', v') :: setKey t k v

/-- Build a Python dict from a scanned pair list (`dict(pairs)`): on a repeated
key the first position and last value win. -/
def dictFromPairs (ps : List (List Char × Json)) : List (List Char × Json) :=
  ps.foldl (fun acc kv => setKey acc kv.1 kv.2) []

mutual

/-- Fueled JSON value scanner, following `json/decoder.py`: skip whitespace,
dispatch on the first character (`null` / `true` / `false` / string / array /
object, anything else is tried as a number).  Fuel only bounds the nesting
recursion; `jsonLoads` supplies more fuel than any input could consume. -/
def parseVal : Nat → List Char → Option (Json × List Char)
  | 0, _ => none
  | fuel + 1, s =>
    match skipWs s with
    | 'n' :: 'u' :: 'l' :: 'l' :: r => some (.null, r)
    | 't' :: 'r' :: 'u' :: 'e' :: r => some (.bool true, r)
    | 'f' :: 'a' :: 'l' :: 's' :: 'e' :: r => some (.bool false, r)
    | '"' :: r =>
      match parseStringBody r with
      | some (s1, r2) => some (.str s1, r2)
      | none => none
    | '[' :: r =>
      match skipWs r with
      | ']' :: r2 => some (.arr [], r2)
      | _ =>
        match parseItems fuel r with
        | some (l, r2) => some (.arr l, r2)
        | none => none
    | '{' :: r =>
      match skipWs r with
      | '}' :: r2 => some (.obj [], r2)
      | _ =>
        match parsePairs fuel r with
        | some (ps, r2) => some (.obj (dictFromPairs ps), r2)
        | none => none
    | s1 =>
      match parseNum s1 with
      | some (i, r) => some (.num i, r)
      | none => none

/-- Scan the items of a non-empty JSON array up to and including `]`. -/
def parseItems : Nat → List Char → Option (List Json × List Char)
  | 0, _ => none
  | fuel + 1, s =>
    match parseVal fuel s with
    | none => none
    | some (v, r) =>
      match skipWs r with
      | ',' :: r2 =>
        match parseItems fuel r2 with
        | some (l, r3) => some (v :: l, r3)
        | none => none
      | ']' :: r2 => some ([v], r2)
      | _ => none

/-- Scan the pairs of a non-empty JSON object up to and including the closing
brace. -/
def parsePairs : Nat → List Char → Option (List (List Char × Json) × List Char)
  | 0, _ => none
  | fuel + 1, s =>
    match skipWs s with
    | '"' :: r =>
      match parseStringBody r with
      | none => none
      | some (k, r2) =>
        match skipWs r2 with
        | ':' :: r3 =>
          match parseVal fuel r3 with
          | none => none
          | some (v, r4) =>
            match skipWs r4 with
            | ',' :: r5 =>
              match parsePairs fuel r5 with
              | some (ps, r6) => some ((k, v) :: ps, r6)
              | none => none
            | '}' :: r5 => some ([(k, v)], r5)
            | _ => none
        | _ => none
    | _ => none

end

/-- `json.loads` on one stripped line: scan one value and require only
whitespace to remain.  The fuel `s.length + 1` dominates the nesting depth of
any parseable input. -/
def jsonLoads (s : List Char) : Option Json :=
  match parseVal (s.length + 1) s with
  | some (v, r) => if skipWs r = [] then some v else none
  | none => none

/-- ASCII whitespace stripped by Python's `str.strip()` (space, `\\t`–`\\r`,
the information separators, NEL and NBSP; the astral Unicode space characters
are left out of the model). -/
def isPySpace (c : Char) : Bool :=
  c = ' ' || (9 ≤ c.toNat && c.toNat ≤ 13) || (28 ≤ c.toNat && c.toNat ≤ 31)
    || c.toNat = 133 || c.toNat = 160

/-- Python `line.strip()`: drop leading and trailing whitespace. -/
def stripChars (l : List Char) : List Char :=
  ((l.dropWhile isPySpace).reverse.dropWhile isPySpace).reverse

/-- Split file content at newline characters, as iterating a text-mode file
and stripping each line does (a trailing empty piece strips to the empty line
and is skipped by the loader, matching Python exactly). -/
def splitLines : List Char → List (List Char)
  | [] => [[]]
  | c :: t =>
    if c = '\n' then [] :: splitLines t
    else
      match splitLines t with
      | [] => [[c]]
      | l :: ls => (c :: l) :: ls

/-- The file content `_write_ndjson` produces: each entity serialized by
`json.dump(entity, f, ensure_ascii=False, default=str)` followed by a
newline.  (`default=str` only fires on values that are not JSON-serializable,
which the model's `Json` type excludes.) -/
def writeNdjson : List Json → List Char
  | [] => []
  | e :: t => serVal e ++ '\n' :: writeNdjson t

/-- The per-line step of `_load_ndjson`: strip the line, skip it when empty,
otherwise `json.loads` it, skipping it (with a warning) when that fails. -/
def parseLine (line : List Char) : Option Json :=
  let s := stripChars line
  if s = [] then none else jsonLoads s

/-- `_load_ndjson` on the content of an existing file: every line that strips
to a parseable JSON value, in file order; empty and malformed lines are
skipped. -/
def loadNdjson (content : List Char) : List Json :=
  (splitLines content).filterMap parseLine

/-! ## The importer's field filtering (`_filter_entity_fields`) -/

/-- Shorthand: the character list of a Lean string literal, for writing the
Python field-name and key constants. -/
def strL (s : String) : List Char := s.toList

/-- Allow-list for `CreateDataProductRequest`. -/
def dataProductsAllowed : List (List Char) :=
  [strL "name", strL "displayName", strL "description",
   strL "fullyQualifiedName", strL "owners", strL "experts", strL "domain",
   strL "assets", strL "tags", strL "extension"]

/-- Allow-list for `CreateDomainRequest`. -/
def domainsAllowed : List (List Char) :=
  [strL "name", strL "displayName", strL "description",
   strL "fullyQualifiedName", strL "domainType", strL "parent",
   strL "owners", strL "experts", strL "tags", strL "extension"]

/-- Allow-list for `CreateTeamRequest`. -/
def teamsAllowed : List (List Char) :=
  [strL "name", strL "displayName", strL "description",
   strL "fullyQualifiedName", strL "teamType", strL "email", strL "parents",
   strL "users", strL "owners", strL "defaultRoles"]

/-- Python `str()` on a parsed-JSON value, as `str(domain.get('name', ''))`
applies it: identity on strings, `repr`-style rendering otherwise (`None`,
`True`/`False`, decimal integers; containers render with Python's `repr` of
their elements).  Nested strings are single-quoted; `repr`'s escaping and
quote-preference rules inside them are elided, and no claim exercises this
fallback beyond the scalar cases. -/
def pyStr : Json → List Char :=
  let quote : List Char → List Char := fun s => '\'' :: s ++ ['\'']
  let rec go : Json → Bool → List Char
    | .null, _ => strL "None"
    | .bool true, _ => strL "True"
    | .bool false, _ => strL "False"
    | .num i, _ => serInt i
    | .str s, nested => if nested then quote s else s
    | .arr l, _ =>
      let rec items : List Json → List Char
        | [] => []
        | [v] => go v true
        | v :: w :: t => go v true ++ ',' :: ' ' :: items (w :: t)
      '[' :: items l ++ [']']
    | .obj ps, _ =>
      let rec pairs : List (List Char × Json) → List Char
        | [] => []
        | [(k, v)] => quote k ++ ':' :: ' ' :: go v true
        | (k, v) :: p :: t =>
            quote k ++ ':' :: ' ' :: go v true ++ ',' :: ' ' :: pairs (p :: t)
      '{' :: pairs ps ++ ['}']
  fun v => go v false

/-- The normalization `_filter_entity_fields` applies to a `data_products`
record whose `domain` field is a dict:
`domain.get('fullyQualifiedName', str(domain.get('name', '')))`. -/
def normalizeDomain (d : Record) : Json :=
  match d.lookup (strL "fullyQualifiedName") with
  | some v => v
  | none =>
    match d.lookup (strL "name") with
    | some v => .str (pyStr v)
    | none => .str []

/-- `_filter_entity_fields` (`src/import.py`, lines 141–172): per-type
allow-list filtering for `data_products` / `domains` / `teams` (dict
comprehensions, so field order is preserved), the `domain` dict-to-string
normalization for `data_products`, and the identity for every other entity
type. -/
def filterEntityFields (entityData : Record) (entityType : String) : Record :=
  if entityType = "data_products" then
    let filtered := entityData.filter fun kv => dataProductsAllowed.contains kv.1
    match filtered.lookup (strL "domain") with
    | some (.obj d) => setKey filtered (strL "domain") (normalizeDomain d)
    | _ => filtered
  else if entityType = "domains" then
    entityData.filter fun kv => domainsAllowed.contains kv.1
  else if entityType = "teams" then
    entityData.filter fun kv => teamsAllowed.contains kv.1
  else
    entityData

/-! ## The importer's per-record and per-type operations -/

/-- The entity types `_import_entity` has a creation path for (the five
`elif` branches building `Create…Request` objects). -/
def implementedTypes : List String :=
  ["data_products", "domains", "teams", "users", "policies"]

/-- The message `_import_entity` records on a per-record failure. -/
def importErrorMsg (entityType : String) (e : String) : String :=
  "Error importing " ++ entityType ++ " entity: " ++ e

/-- `_import_entity` (`src/import.py`, lines 174–211).  The construction of
the `Create…Request` and the remote `create_or_update…` call are a single
oracle `remote : entityType → filtered record → Option errorMessage` (`none`
is success).  On a failure the message is appended to the error list; with
`skip_on_error` (default `true` via `.get('skip_on_error', True)`) the record
is skipped (`false` result), otherwise the exception is re-raised
(`Except.error`).  An unimplemented entity type returns `false` with a
warning.  A line that parsed to a non-mapping raises inside the `try` when
its fields are accessed, so it takes the same per-record failure path. -/
def importEntity (skipOnError : Option Bool)
    (remote : String → Record → Option String) (errors : List String)
    (entity : Json) (entityType : String) : Except String (Bool × List String) :=
  let fail : String → Except String (Bool × List String) := fun e =>
    let errors' := errors ++ [importErrorMsg entityType e]
    if skipOnError.getD true then .ok (false, errors') else .error e
  match entity with
  | .obj ps =>
    let filtered := filterEntityFields ps entityType
    if implementedTypes.contains entityType then
      match remote entityType filtered with
      | none => .ok (true, errors)
      | some e => fail e
    else .ok (false, errors)
  | _ => fail "entity record is not a mapping"

/-- The loop of `_import_entity_type` over the loaded entities, counting
successes and threading the error list; a re-raised per-record exception
aborts it. -/
def importEntityLoop (skipOnError : Option Bool)
    (remote : String → Record → Option String) (entityType : String) :
    List Json → Nat → List String → Except String (Nat × List String)
  | [], count, errors => .ok (count, errors)
  | e :: t, count, errors =>
    match importEntity skipOnError remote errors e entityType with
    | .error msg => .error msg
    | .ok (true, errors') => importEntityLoop skipOnError remote entityType t (count + 1) errors'
    | .ok (false, errors') => importEntityLoop skipOnError remote entityType t count errors'

/-- `_import_entity_type` (`src/import.py`, lines 213–239).  The input
directory is the oracle `fs : file name → Option content`.  A missing
`<entity_type>.ndjson` returns success count 0, an empty load returns 0, and
otherwise each loaded entity goes through `_import_entity`. -/
def importEntityType (fs : String → Option (List Char))
    (skipOnError : Option Bool) (remote : String → Record → Option String)
    (errors : List String) (entityType : String) :
    Except String (Nat × List String) :=
  match fs (entityType ++ ".ndjson") with
  | none => .ok (0, errors)
  | some content =>
    let entities := loadNdjson content
    if entities.isEmpty then .ok (0, errors)
    else importEntityLoop skipOnError remote entityType entities 0 errors

/-! ## The importer's configuration and environment overrides -/

/-- The configuration fields `_apply_env_overrides` of `src/import.py`
touches.  `update_existing` and `skip_on_error` are `Option Bool` because the
code reads `skip_on_error` through `.get(..., True)`. -/
structure ImportConfig where
  serverUrl : String
  jwtToken : String
  inputDir : String
  updateExisting : Option Bool
  skipOnError : Option Bool
  logLevel : String

/-- Python `str.lower()` character by character (`Char.toLower` matches it on
the ASCII values the boolean flags take). -/
def pyLower (s : String) : String := String.mk (s.data.map Char.toLower)

/-- Python truthiness of `os.getenv(name)`: an unset variable and the empty
string are both falsy, so neither triggers an override. -/
def envTruthy (env : String → Option String) (name : String) : Option String :=
  match env name with
  | some s => if s = "" then none else some s
  | none => none

/-- `_apply_env_overrides` (`src/import.py`, lines 63–84): each present,
non-empty environment variable overwrites its configuration slot; the two
boolean flags become `value.lower() == 'true'`. -/
def applyEnvOverrides (env : String → Option String) (cfg : ImportConfig) :
    ImportConfig :=
  let cfg := match envTruthy env "OPENMETADATA_SERVER_URL" with
    | some s => { cfg with serverUrl := s }
    | none => cfg
  let cfg := match envTruthy env "OPENMETADATA_JWT_TOKEN" with
    | some s => { cfg with jwtToken := s }
    | none => cfg
  let cfg := match envTruthy env "IMPORT_INPUT_DIR" with
    | some s => { cfg with inputDir := s }
    | none => cfg
  let cfg := match envTruthy env "IMPORT_UPDATE_EXISTING" with
    | some s => { cfg with updateExisting := some (pyLower s = "true") }
    | none => cfg
  let cfg := match envTruthy env "IMPORT_SKIP_ON_ERROR" with
    | some s => { cfg with skipOnError := some (pyLower s = "true") }
    | none => cfg
  let cfg := match envTruthy env "LOG_LEVEL" with
    | some s => { cfg with logLevel := s }
    | none => cfg
  cfg

/-! ## The exporter's entity selection and statistics (`export_all`) -/

/-- The keys of `entity_mappings` in `export_all` (`src/export.py`,
lines 171–182), in their Python insertion order. -/
def entityMappingNames : List String :=
  ["teams", "users", "policies", "domains", "glossaries", "glossary_terms",
   "databases", "database_schemas", "tables", "data_products"]

/-- The working set `entities_to_export` of `export_all` (`src/export.py`,
lines 184–194): an explicit selection keeps its order, restricted to known
entity names (the dict comprehension also drops later duplicates); with no
selection, the names whose enable flag is true in
`config['export']['entities']` (`export_config.get(name, False)`). -/
def entitiesToExport (selected : Option (List String))
    (exportEntities : List (String × Bool)) : List String :=
  match selected with
  | some sel => (sel.filter fun n => entityMappingNames.contains n).eraseDups
  | none =>
    entityMappingNames.filter fun n => (exportEntities.lookup n).getD false

/-- `_write_ndjson`'s count result (`src/export.py`, lines 110–125): the
number of entities written, or 0 when the file write raises (the exception is
caught inside `_write_ndjson`). -/
def writeNdjsonCount (entities : List Json) (writeFails : Bool) : Nat :=
  if writeFails then 0 else entities.length

/-- `_export_entity_type` (`src/export.py`, lines 127–160): the SDK listing
and serialization are the oracle result `listed` (`Except.error` models a
raised exception anywhere in the `try` block, caught to return 0); a
successful listing is written by `_write_ndjson`. -/
def exportEntityType (listed : Except String (List Json)) (writeFails : Bool) :
    Nat :=
  match listed with
  | .error _ => 0
  | .ok entities => writeNdjsonCount entities writeFails

/-- The statistics `export_all` accumulates (`src/export.py`, lines
196–205): one `export_stats` entry per working-set entity type, in working-set
order, each from an independent `_export_entity_type` call. -/
def exportAllStats (selected : Option (List String))
    (exportEntities : List (String × Bool))
    (listOracle : String → Except String (List Json))
    (writeFailOracle : String → Bool) : List (String × Nat) :=
  (entitiesToExport selected exportEntities).map fun n =>
    (n, exportEntityType (listOracle n) (writeFailOracle n))

/-! ## Statement devices -/

/-- Build a file content out of given physical lines (each followed by a
newline), to quantify over files in the line-isolation statements. -/
def joinLines : List (List Char) → List Char
  | [] => []
  | l :: t => l ++ '\n' :: joinLines t

/-- The input after a serialized number never continues with a digit, a dot
or an exponent letter; under this condition the number scanner stops exactly
at the serialized digits. -/
def numStopB : List Char → Bool
  | [] => true
  | c :: _ => !(c.isDigit || c = '.' || c = 'e' || c = 'E')

/-!
# Theorems

First the helper lemmas, then one theorem per claim (with its witness or
counterexample where required).
-/

/-- Positivity of the parser-fuel size of a value. -/
theorem jsize_pos (v : Json) : 1 ≤ jsize v := by
  cases v <;> simp [jsize]

/-- Positivity of the items size of a non-empty list. -/
theorem lsize_pos (v : Json) (t : List Json) : 1 ≤ lsize (v :: t) := by
  simp [lsize]
  omega

/-- Keys of `filterEntityFields` output for `domains` records: exactly the
input pairs whose key is in the hardcoded allow-list, values untouched
(claim C2). -/
theorem filter_domains_exact (r : Record) (k : List Char) (v : Json) :
    (k, v) ∈ filterEntityFields r "domains" ↔
      (k, v) ∈ r ∧
        k ∈ [strL "name", strL "displayName", strL "description",
          strL "fullyQualifiedName", strL "domainType", strL "parent",
          strL "owners", strL "experts", strL "tags", strL "extension"] := by
  show (k, v) ∈ r.filter (fun kv => domainsAllowed.contains kv.1) ↔ _
  simp [List.mem_filter, domainsAllowed, List.elem_iff]

/-- Membership in the configured working set of `export_all` when no explicit
selection is given, and the concrete `{domains: true, teams: true,
data_products: false}` instance: exactly teams and domains get a stats entry
(claim C3). -/
theorem export_enabled_selection :
    (∀ (cfg : List (String × Bool)) (n : String),
        n ∈ entitiesToExport none cfg ↔
          n ∈ entityMappingNames ∧ (cfg.lookup n).getD false = true)
    ∧ ∀ (listOracle : String → Except String (List Json))
        (writeFailOracle : String → Bool),
        (exportAllStats none
            [("domains", true), ("teams", true), ("data_products", false)]
            listOracle writeFailOracle).map Prod.fst = ["teams", "domains"] := by
  constructor
  · intro cfg n
    simp [entitiesToExport, List.mem_filter]
  · intro listOracle writeFailOracle
    show (List.map _ _).map Prod.fst = _
    rw [List.map_map]
    rfl

/-- A missing `<entity_type>.ndjson` file makes `_import_entity_type` return
a success count of 0 without raising, and leaves the error list untouched
(claim C4). -/
theorem import_missing_file_zero (fs : String → Option (List Char))
    (skipOnError : Option Bool) (remote : String → Record → Option String)
    (errors : List String) (entityType : String)
    (h : fs (entityType ++ ".ndjson") = none) :
    importEntityType fs skipOnError remote errors entityType
      = .ok (0, errors) := by
  unfold importEntityType
  rw [h]

/-- Witness for claim C4 at a concrete empty input directory. -/
theorem import_missing_file_zero_witness :
    importEntityType (fun _ => none) (some true) (fun _ _ => none) []
      "domains" = .ok (0, []) :=
  import_missing_file_zero (fun _ => none) (some true) (fun _ _ => none) []
    "domains" rfl

/-- For every entity type outside the three filtered ones,
`_filter_entity_fields` is the identity, so the creation request receives the
record unchanged (claim C10). -/
theorem filter_other_types_identity (entityType : String) (r : Record)
    (h1 : entityType ≠ "data_products") (h2 : entityType ≠ "domains")
    (h3 : entityType ≠ "teams") :
    filterEntityFields r entityType = r := by
  unfold filterEntityFields
  rw [if_neg h1, if_neg h2, if_neg h3]

/-- Witness for claim C10: a `users` record with a field no creation contract
mentions passes through unchanged. -/
theorem filter_other_types_identity_witness :
    filterEntityFields
      [(strL "name", .str (strL "u1")), (strL "version", .num 3)] "users"
      = [(strL "name", .str (strL "u1")), (strL "version", .num 3)] :=
  filter_other_types_identity "users" _ (by decide) (by decide) (by decide)

/-- Looking a key up in an allow-list-filtered record: present with its
original value iff the key passes the filter. -/
theorem lookup_filter_key (p : List Char → Bool) (l : Record) (k : List Char) :
    (l.filter fun kv => p kv.1).lookup k
      = if p k then l.lookup k else none := by
  induction l with
  | nil => simp
  | cons kv t ih =>
    obtain ⟨k', v'⟩ := kv
    by_cases hk : k' = k
    · subst hk
      by_cases hp : p k' <;> simp [List.filter_cons, hp, List.lookup, ih]
    · have hbeq : (k == k') = false := by
        simp [BEq.comm]
        exact fun h => hk h.symm
      by_cases hp : p k' <;>
        simp [List.filter_cons, hp, List.lookup, hbeq, ih]

/-- Python dict assignment: after `setKey l k v` the key `k` maps to `v`. -/
theorem lookup_setKey (l : Record) (k : List Char) (v : Json) :
    (setKey l k v).lookup k = some v := by
  induction l with
  | nil => simp [setKey, List.lookup]
  | cons kv t ih =>
    obtain ⟨k', v'⟩ := kv
    by_cases hk : k' = k
    · simp [setKey, hk, List.lookup]
    · have hbeq : (k == k') = false := by
        simp [BEq.comm]
        exact fun h => hk h.symm
      simp [setKey, hk, List.lookup, hbeq, ih]

/-- For a `data_products` record whose `domain` field is a full object, the
imported record's `domain` becomes the object's `fullyQualifiedName` value;
a `domain` that is already a string is left unchanged (claim C9). -/
theorem data_products_domain_normalized (r : Record) :
    (∀ d : Record, r.lookup (strL "domain") = some (.obj d) →
      ∀ q : Json, d.lookup (strL "fullyQualifiedName") = some q →
        (filterEntityFields r "data_products").lookup (strL "domain") = some q)
    ∧ ∀ s : List Char, r.lookup (strL "domain") = some (.str s) →
        (filterEntityFields r "data_products").lookup (strL "domain")
          = some (.str s) := by
  have hallow : dataProductsAllowed.contains (strL "domain") = true := by decide
  have hfilter :
      (r.filter fun kv => dataProductsAllowed.contains kv.1).lookup
          (strL "domain") = r.lookup (strL "domain") := by
    rw [lookup_filter_key, if_pos hallow]
  constructor
  · intro d hd q hq
    unfold filterEntityFields
    rw [if_pos rfl]
    simp only [hfilter, hd]
    rw [lookup_setKey]
    unfold normalizeDomain
    rw [hq]
  · intro s hs
    unfold filterEntityFields
    rw [if_pos rfl]
    simp only [hfilter, hs]

/-- Witness for claim C9 at a concrete record: a dict-valued `domain` is
replaced by its qualified name, a string-valued one stays. -/
theorem data_products_domain_normalized_witness :
    (filterEntityFields
        [(strL "name", .str (strL "p")),
         (strL "domain", .obj [(strL "id", .num 7),
            (strL "fullyQualifiedName", .str (strL "Dom"))])]
        "data_products").lookup (strL "domain") = some (.str (strL "Dom")) :=
  (data_products_domain_normalized
      [(strL "name", .str (strL "p")),
       (strL "domain", .obj [(strL "id", .num 7),
          (strL "fullyQualifiedName", .str (strL "Dom"))])]).1
    [(strL "id", .num 7), (strL "fullyQualifiedName", .str (strL "Dom"))]
    rfl (.str (strL "Dom")) rfl

/-- A per-record import failure appends the error message and then either
swallows the failure (`skip_on_error` true: `false` result, run continues) or
re-raises it (`skip_on_error` false): the flag is the single switch
(claim C6). -/
theorem import_entity_failure_switch (skipOnError : Option Bool)
    (remote : String → Record → Option String) (errors : List String)
    (ps : Record) (entityType : String) (e : String)
    (himpl : implementedTypes.contains entityType = true)
    (hfail : remote entityType (filterEntityFields ps entityType) = some e) :
    importEntity skipOnError remote errors (.obj ps) entityType
      = if skipOnError.getD true
        then .ok (false, errors ++ [importErrorMsg entityType e])
        else .error e := by
  unfold importEntity
  simp only [himpl, hfail, if_true]

/-- Witness for claim C6: one concrete failing record under each value of the
flag. -/
theorem import_entity_failure_switch_witness :
    (importEntity (some true) (fun _ _ => some "boom") [] (.obj []) "teams"
        = .ok (false, [importErrorMsg "teams" "boom"]))
    ∧ importEntity (some false) (fun _ _ => some "boom") [] (.obj []) "teams"
        = .error "boom" :=
  ⟨import_entity_failure_switch (some true) (fun _ _ => some "boom") [] []
      "teams" "boom" (by decide) rfl,
    import_entity_failure_switch (some false) (fun _ _ => some "boom") [] []
      "teams" "boom" (by decide) rfl⟩

/-- Looking up a working-set member in the per-type stats built by mapping
over the working set. -/
theorem lookup_map_stats (l : List String) (g : String → Nat) (n : String)
    (h : n ∈ l) : (l.map fun m => (m, g m)).lookup n = some (g n) := by
  induction l with
  | nil => cases h
  | cons m t ih =>
    rcases List.mem_cons.mp h with rfl | h2
    · simp [List.lookup]
    · by_cases hm : n = m
      · subst hm
        simp [List.lookup]
      · have hbeq : (n == m) = false := by simpa using hm
        simp [List.lookup, hbeq, ih h2]

/-- A failure exporting one entity type (listing raised, or the file write
raised) records a count of 0 for it, while every working-set type still gets
its own stats entry: one failure never aborts `export_all` (claim C7). -/
theorem export_failure_isolated (selected : Option (List String))
    (cfg : List (String × Bool))
    (listOracle : String → Except String (List Json))
    (writeFailOracle : String → Bool) (n : String)
    (hmem : n ∈ entitiesToExport selected cfg)
    (hfail : (∃ msg, listOracle n = .error msg) ∨ writeFailOracle n = true) :
    (exportAllStats selected cfg listOracle writeFailOracle).lookup n = some 0
    ∧ (exportAllStats selected cfg listOracle writeFailOracle).map Prod.fst
        = entitiesToExport selected cfg := by
  constructor
  · rw [exportAllStats, lookup_map_stats _ _ _ hmem]
    rcases hfail with ⟨msg, hmsg⟩ | hw
    · simp [exportEntityType, hmsg]
    · cases hl : listOracle n <;>
        simp [exportEntityType, writeNdjsonCount, hw]
  · rw [exportAllStats, List.map_map]
    have hcomp : (Prod.fst ∘ fun n : String =>
        (n, exportEntityType (listOracle n) (writeFailOracle n))) = fun n => n := by
      funext m
      rfl
    rw [hcomp, List.map_id']

/-- Witness for claim C7: with teams listing down, teams records 0 and
domains still gets its entry. -/
theorem export_failure_isolated_witness :
    (exportAllStats none [("teams", true), ("domains", true)]
        (fun m => if m = "teams" then .error "down" else .ok [])
        (fun _ => false)).lookup "teams" = some 0
    ∧ (exportAllStats none [("teams", true), ("domains", true)]
        (fun m => if m = "teams" then .error "down" else .ok [])
        (fun _ => false)).map Prod.fst
        = entitiesToExport none [("teams", true), ("domains", true)] :=
  export_failure_isolated none [("teams", true), ("domains", true)]
    (fun m => if m = "teams" then .error "down" else .ok [])
    (fun _ => false) "teams" (by decide) (.inl ⟨"down", rfl⟩)

/-- Only the `IMPORT_SKIP_ON_ERROR` step of `_apply_env_overrides` can touch
`skip_on_error`. -/
theorem skipOnError_after_overrides (env : String → Option String)
    (cfg : ImportConfig) :
    (applyEnvOverrides env cfg).skipOnError
      = match envTruthy env "IMPORT_SKIP_ON_ERROR" with
        | some s => some (pyLower s = "true")
        | none => cfg.skipOnError := by
  unfold applyEnvOverrides
  repeat' split
  all_goals simp_all

/-- `IMPORT_SKIP_ON_ERROR=false` in the environment forces the loaded
configuration's `skip_on_error` to boolean false whatever the file said, and
`IMPORT_SKIP_ON_ERROR=true` forces boolean true (claim C8). -/
theorem env_skip_on_error_override (cfg : ImportConfig)
    (env : String → Option String) :
    (env "IMPORT_SKIP_ON_ERROR" = some "false" →
      (applyEnvOverrides env cfg).skipOnError = some false)
    ∧ (env "IMPORT_SKIP_ON_ERROR" = some "true" →
      (applyEnvOverrides env cfg).skipOnError = some true) := by
  constructor <;> intro h <;>
    rw [skipOnError_after_overrides] <;>
    simp [envTruthy, h] <;> decide

/-- Witness for claim C8: the override flips a configuration-file default of
`true` to `false`. -/
theorem env_skip_on_error_override_witness :
    (applyEnvOverrides
        (fun n => if n = "IMPORT_SKIP_ON_ERROR" then some "false" else none)
        ⟨"http://src", "tok", "./export", some true, some true, "INFO"⟩
      ).skipOnError = some false :=
  (env_skip_on_error_override
      ⟨"http://src", "tok", "./export", some true, some true, "INFO"⟩
      (fun n => if n = "IMPORT_SKIP_ON_ERROR" then some "false" else none)).1
    rfl

/-- Splitting at newlines strips a newline-free leading line off the
content. -/
theorem splitLines_append (x : List Char) (r : List Char) (h : '\n' ∉ x) :
    splitLines (x ++ '\n' :: r) = x :: splitLines r := by
  induction x with
  | nil => simp [splitLines]
  | cons c x' ih =>
    have hc : ¬c = '\n' := fun hc => h (hc ▸ List.mem_cons_self c x')
    have hx' : '\n' ∉ x' := fun hm => h (List.mem_cons_of_mem c hm)
    simp [splitLines, hc, ih hx']

/-- A malformed line never disturbs its neighbours: `_load_ndjson` of a file
built from any physical lines returns exactly the per-line parse results of
the lines that strip to parseable JSON, in file order, and raises nothing
(claim C5). -/
theorem load_ndjson_line_isolation (ls : List (List Char))
    (h : ∀ l ∈ ls, '\n' ∉ l) :
    loadNdjson (joinLines ls) = ls.filterMap parseLine := by
  induction ls with
  | nil => rfl
  | cons l t ih =>
    have hl : '\n' ∉ l := h l (List.mem_cons_self l t)
    have ht : ∀ l' ∈ t, '\n' ∉ l' := fun l' hm => h l' (List.mem_cons_of_mem l hm)
    show (splitLines (l ++ '\n' :: joinLines t)).filterMap parseLine = _
    rw [splitLines_append l (joinLines t) hl, List.filterMap_cons]
    cases hp : parseLine l <;> simp [hp, ← ih ht, loadNdjson]

/-- Witness for claim C5: the malformed middle line is skipped, the valid
lines around it load in order. -/
theorem load_ndjson_line_isolation_witness :
    loadNdjson (joinLines [strL "true", strL "nope", strL "[1, 2]"])
      = [Json.bool true, Json.arr [Json.num 1, Json.num 2]] :=
  (load_ndjson_line_isolation [strL "true", strL "nope", strL "[1, 2]"]
      (by decide)).trans rfl

/-- Characterization of `Char.isDigit` through code points. -/
theorem isDigit_iff_toNat (c : Char) :
    c.isDigit = true ↔ 48 ≤ c.toNat ∧ c.toNat ≤ 57 := by
  simp only [Char.isDigit, Bool.and_eq_true, decide_eq_true_eq, Char.le_def,
    Char.toNat]
  exact Iff.rfl

/-- Characters with distinct code points are distinct. -/
theorem ne_of_toNat_ne (c d : Char) (h : c.toNat ≠ d.toNat) : c ≠ d :=
  fun he => h (he ▸ rfl)

/-- `takeWhile`/`dropWhile` stop exactly at the boundary between a block
where the predicate holds and a continuation that starts by failing it. -/
theorem takeWhile_dropWhile_append (p : Char → Bool) (xs ys : List Char)
    (h1 : ∀ x ∈ xs, p x = true) (h2 : ∀ c t, ys = c :: t → p c = false) :
    (xs ++ ys).takeWhile p = xs ∧ (xs ++ ys).dropWhile p = ys := by
  induction xs with
  | nil =>
    cases ys with
    | nil => simp
    | cons c t =>
      simp [List.takeWhile_cons, List.dropWhile_cons, h2 c t rfl]
  | cons x xs' ih =>
    have hx : p x = true := h1 x (List.mem_cons_self x xs')
    have h1' : ∀ x' ∈ xs', p x' = true := fun x' hm =>
      h1 x' (List.mem_cons_of_mem x hm)
    have := ih h1'
    simp [List.takeWhile_cons, List.dropWhile_cons, hx, this.1, this.2]

/-- Every character of the digit expansion is a decimal digit. -/
theorem natDigitsRev_digits (n : Nat) :
    ∀ c ∈ natDigitsRev n, c.isDigit = true := by
  induction n using Nat.strong_induction_on with
  | _ n ih =>
    have hdig : ∀ m, m < 10 → (Char.ofNat (48 + m)).isDigit = true := by decide
    rw [natDigitsRev]
    split
    · intro c hc
      rw [List.mem_singleton] at hc
      subst hc
      exact hdig n (by omega)
    · intro c hc
      rcases List.mem_cons.mp hc with rfl | hc'
      · exact hdig (n % 10) (Nat.mod_lt _ (by omega))
      · exact ih (n / 10) (Nat.div_lt_self (by omega) (by omega)) c hc'

/-- Reading the digit expansion back recovers the number. -/
theorem digitsVal_serNat (n : Nat) : digitsVal (serNat n) = n := by
  have htn : ∀ m, m < 10 → (Char.ofNat (48 + m)).toNat = 48 + m := by decide
  suffices h : ∀ m : Nat,
      (natDigitsRev m).foldr (fun c a => a * 10 + (c.toNat - 48)) 0 = m by
    unfold digitsVal serNat
    rw [List.foldl_reverse]
    exact h n
  intro m
  induction m using Nat.strong_induction_on with
  | _ m ih =>
    rw [natDigitsRev]
    split
    · rename_i h10
      simp only [List.foldr]
      rw [htn m h10]
      omega
    · rename_i h10
      simp only [List.foldr]
      rw [ih (m / 10) (Nat.div_lt_self (by omega) (by omega))]
      rw [htn (m % 10) (Nat.mod_lt _ (by omega))]
      omega

/-- Shape of the decimal rendering: a digit head (nonzero when the number is)
followed by digits. -/
theorem serNat_cons (n : Nat) :
    ∃ c ds, serNat n = c :: ds ∧ c.isDigit = true ∧ (n ≠ 0 → c ≠ '0')
      ∧ ∀ d ∈ ds, d.isDigit = true := by
  have hz : ∀ m, m < 10 → m ≠ 0 → Char.ofNat (48 + m) ≠ '0' := by decide
  suffices h : ∃ pre c, natDigitsRev n = pre ++ [c]
      ∧ (∀ d ∈ pre, d.isDigit = true) ∧ c.isDigit = true
      ∧ (n ≠ 0 → c ≠ '0') by
    obtain ⟨pre, c, he, hpre, hdig, hzero⟩ := h
    refine ⟨c, pre.reverse, ?_, hdig, hzero, ?_⟩
    · rw [serNat, he, List.reverse_append, List.reverse_singleton]
      rfl
    · intro d hd
      exact hpre d (List.mem_reverse.mp hd)
  have hd10 : ∀ m, m < 10 → (Char.ofNat (48 + m)).isDigit = true := by decide
  induction n using Nat.strong_induction_on with
  | _ n ih =>
    rw [natDigitsRev]
    split
    · rename_i h10
      exact ⟨[], Char.ofNat (48 + n), rfl, by simp, hd10 n h10, hz n h10⟩
    · rename_i h10
      obtain ⟨pre', c, he, hpre, hdig, hzero⟩ :=
        ih (n / 10) (Nat.div_lt_self (by omega) (by omega))
      refine ⟨Char.ofNat (48 + n % 10) :: pre', c,
        by rw [he, List.cons_append], ?_, hdig, ?_⟩
      · intro d hd
        rcases List.mem_cons.mp hd with rfl | hd'
        · exact natDigitsRev_digits (n % 10) _
            (by rw [natDigitsRev]; simp [Nat.mod_lt n (by omega : 0 < 10)])
        · exact hpre d hd'
      · intro _
        exact hzero (by omega)

/-- Unpack the `numStopB` side condition on a cons. -/
theorem numStopB_cons (c : Char) (t : List Char)
    (h : numStopB (c :: t) = true) :
    c.isDigit = false ∧ c ≠ '.' ∧ c ≠ 'e' ∧ c ≠ 'E' := by
  simpa [numStopB, not_or, and_assoc] using h

/-- A continuation that stops a number has no fraction or exponent opener. -/
theorem noFracExp_of_numStopB (r : List Char) (h : numStopB r = true) :
    noFracExp r = true := by
  cases r with
  | nil => rfl
  | cons c t =>
    obtain ⟨_, h2, h3, h4⟩ := numStopB_cons c t h
    unfold noFracExp
    split
    · rename_i he
      exact absurd (List.cons.injEq .. ▸ he).1 h2
    · rename_i he
      exact absurd (List.cons.injEq .. ▸ he).1 h3
    · rename_i he
      exact absurd (List.cons.injEq .. ▸ he).1 h4
    · rfl

/-- The unsigned scanner reads back exactly a serialized natural number when
the continuation does not extend it. -/
theorem parseNumCore_serNat (n : Nat) (rest : List Char)
    (hstop : numStopB rest = true) :
    parseNumCore (serNat n ++ rest) = some (n, rest) := by
  have hrest : ∀ c t, rest = c :: t → c.isDigit = false := by
    intro c t he
    exact (numStopB_cons c t (he ▸ hstop)).1
  by_cases hn : n = 0
  · subst hn
    have h0 : serNat 0 = ['0'] := by
      rw [serNat, natDigitsRev]
      decide
    rw [h0]
    cases rest with
    | nil => rfl
    | cons c t => rfl
  · obtain ⟨c, ds, hser, hcdig, hczero, hdsdig⟩ := serNat_cons n
    have htd := takeWhile_dropWhile_append Char.isDigit ds rest hdsdig hrest
    rw [hser, List.cons_append]
    rw [parseNumCore, if_neg (hczero hn), if_pos hcdig, htd.1, htd.2]
    rw [show (c :: ds) = serNat n from hser.symm, digitsVal_serNat]

/-- A number scan that does not start with a minus sign goes through the
unsigned branch. -/
theorem parseNum_not_minus (c : Char) (t : List Char) (h : c ≠ '-') :
    parseNum (c :: t)
      = match parseNumCore (c :: t) with
        | some (n, r) => if noFracExp r then some ((n : Int), r) else none
        | none => none := by
  unfold parseNum
  split
  · rename_i he
    exact absurd (List.cons.injEq .. ▸ he).1 h
  · rfl

/-- The number scanner reads back exactly a serialized integer when the
continuation does not extend it. -/
theorem parseNum_serInt (i : Int) (rest : List Char)
    (hstop : numStopB rest = true) :
    parseNum (serInt i ++ rest) = some (i, rest) := by
  have hnf := noFracExp_of_numStopB rest hstop
  by_cases hi : i < 0
  · rw [serInt, if_pos hi, List.cons_append]
    show (match parseNumCore (serNat i.natAbs ++ rest) with
      | some (n, r) => if noFracExp r then some (-(n : Int), r) else none
      | none => none) = _
    rw [parseNumCore_serNat i.natAbs rest hstop]
    simp only [hnf, if_true]
    congr 1
    rw [Prod.mk.injEq]
    exact ⟨by omega, rfl⟩
  · rw [serInt, if_neg hi]
    obtain ⟨c, ds, hser, hcdig, _, _⟩ := serNat_cons i.toNat
    have hc45 : c ≠ '-' := by
      refine ne_of_toNat_ne c '-' ?_
      have := (isDigit_iff_toNat c).mp hcdig
      intro he
      rw [he] at this
      revert this
      decide
    rw [hser, List.cons_append, parseNum_not_minus c (ds ++ rest) hc45,
      ← List.cons_append, show (c :: ds) = serNat i.toNat from hser.symm,
      parseNumCore_serNat i.toNat rest hstop]
    simp only [hnf, if_true]
    congr 1
    rw [Prod.mk.injEq]
    exact ⟨by omega, rfl⟩

/-- Reading a hex digit back gives the value it encodes. -/
theorem hexVal_hexDig : ∀ m, m < 16 → hexVal (hexDig m) = some m := by decide

/-- The string scanner decodes one escaped character and goes on. -/
theorem escapeChar_parse (c : Char) (tail s r : List Char)
    (h : parseStringBody tail = some (s, r)) :
    parseStringBody (escapeChar c ++ tail) = some (c :: s, r) := by
  unfold escapeChar
  split_ifs with h1 h2 h3 h4 h5 h6 h7 h8
  · subst h1
    unfold parseStringBody
    simp [escDecode, h]
  · subst h2
    unfold parseStringBody
    simp [escDecode, h]
  · subst h3
    unfold parseStringBody
    simp [escDecode, h]
  · subst h4
    unfold parseStringBody
    simp [escDecode, h]
  · subst h5
    unfold parseStringBody
    simp [escDecode, h]
  · subst h6
    unfold parseStringBody
    simp [escDecode, h]
  · subst h7
    unfold parseStringBody
    simp [escDecode, h]
  · have hhi := hexVal_hexDig (c.toNat / 16) (by omega)
    have hlo := hexVal_hexDig (c.toNat % 16) (by omega)
    have h0 : hexVal '0' = some 0 := by decide
    have hguard : c.toNat < 55296 ∨ (57343 < c.toNat ∧ c.toNat < 1114112) :=
      Or.inl (by omega)
    unfold parseStringBody
    simp only [List.cons_append, List.nil_append, h0, hhi, hlo]
    have hcode : ((0 * 16 + 0) * 16 + c.toNat / 16) * 16 + c.toNat % 16
        = c.toNat := by omega
    simp [hcode, hguard, Char.ofNat_toNat, h]
    refine ⟨by omega, ?_⟩
    rw [(by omega : c.toNat / 16 * 16 + c.toNat % 16 = c.toNat)]
    exact Char.ofNat_toNat c
  · unfold parseStringBody
    simp [h1, h2, h8, h]

/-- The string scanner undoes the encoder's escaping, stopping at the closing
quote. -/
theorem parseStringBody_escString (s : List Char) :
    ∀ rest, parseStringBody (escString s ++ '"' :: rest) = some (s, rest) := by
  induction s with
  | nil =>
    intro rest
    unfold escString parseStringBody
    simp
  | cons c t ih =>
    intro rest
    rw [escString, List.append_assoc]
    exact escapeChar_parse c _ t rest (ih rest)

/-- Characters with equal code points are equal. -/
theorem char_eq_of_toNat (c d : Char) (h : c.toNat = d.toNat) : c = d :=
  Char.eq_of_val_eq (UInt32.ext h)

/-- A decimal digit differs from any character outside the digit block. -/
theorem digit_ne (c : Char) (h : c.isDigit = true) (d : Char)
    (hd : d.toNat < 48 ∨ 57 < d.toNat) : c ≠ d := by
  have hn := (isDigit_iff_toNat c).mp h
  intro he
  subst he
  omega

/-- A decimal digit is not JSON whitespace and not a closing bracket, brace
or minus sign. -/
theorem digit_head_facts (c : Char) (h : c.isDigit = true) :
    isJsonWs c = false ∧ c ≠ ']' ∧ c ≠ '}' ∧ c ≠ '-' := by
  refine ⟨?_, digit_ne c h ']' (by decide), digit_ne c h '}' (by decide),
    digit_ne c h '-' (by decide)⟩
  have h1 : ¬c = ' ' := digit_ne c h ' ' (by decide)
  have h2 : ¬c = '\t' := digit_ne c h '\t' (by decide)
  have h3 : ¬c = '\n' := digit_ne c h '\n' (by decide)
  have h4 : ¬c = '\r' := digit_ne c h '\r' (by decide)
  simp [isJsonWs, h1, h2, h3, h4]

/-- `skipWs` does nothing on a non-whitespace head. -/
theorem skipWs_cons_false (c : Char) (t : List Char)
    (h : isJsonWs c = false) : skipWs (c :: t) = c :: t := by
  simp [skipWs, List.dropWhile_cons, h]

/-- `skipWs` swallows a leading blank. -/
theorem skipWs_cons_sp (t : List Char) : skipWs (' ' :: t) = skipWs t := by
  have hsp : isJsonWs ' ' = true := by decide
  simp [skipWs, List.dropWhile_cons, hsp]

/-- The value scanner ignores a leading blank. -/
theorem parseVal_ws (f : Nat) (t : List Char) :
    parseVal f (' ' :: t) = parseVal f t := by
  cases f with
  | zero => rfl
  | succ f =>
    simp only [parseVal]
    rw [skipWs_cons_sp]

/-- The items scanner ignores a leading blank. -/
theorem parseItems_ws (f : Nat) (t : List Char) :
    parseItems f (' ' :: t) = parseItems f t := by
  cases f with
  | zero => rfl
  | succ f =>
    simp only [parseItems]
    rw [parseVal_ws]

/-- The pairs scanner ignores a leading blank. -/
theorem parsePairs_ws (f : Nat) (t : List Char) :
    parsePairs f (' ' :: t) = parsePairs f t := by
  cases f with
  | zero => rfl
  | succ f =>
    simp only [parsePairs]
    rw [skipWs_cons_sp]

/-- A scan that starts with a digit or a minus sign falls through all keyword
and bracket branches into the number branch. -/
theorem parseVal_succ_num (f : Nat) (c : Char) (t : List Char)
    (hd : c.isDigit = true ∨ c = '-') (hws : isJsonWs c = false) :
    parseVal (f + 1) (c :: t)
      = match parseNum (c :: t) with
        | some (i, r) => some (.num i, r)
        | none => none := by
  simp only [parseVal]
  rw [skipWs_cons_false c t hws]
  split
  all_goals first
  | rfl
  | · rename_i he
      exfalso
      rcases hd with hdig | hminus
      · injection he with h1 _
        subst h1
        exact absurd hdig (by decide)
      · subst hminus
        injection he with h1 _
        exact absurd h1 (by decide)

/-- Every serialized value starts with a non-whitespace character that is
neither a closing bracket nor a closing brace. -/
theorem serVal_head (v : Json) :
    ∃ c t, serVal v = c :: t ∧ isJsonWs c = false ∧ c ≠ ']' ∧ c ≠ '}' := by
  cases v with
  | num i =>
    show ∃ c t, serInt i = c :: t ∧ _
    by_cases hi : i < 0
    · rw [serInt, if_pos hi]
      exact ⟨'-', _, rfl, by decide⟩
    · rw [serInt, if_neg hi]
      obtain ⟨c, ds, hser, hcdig, _, _⟩ := serNat_cons i.toNat
      obtain ⟨hws, hbr, hbc, _⟩ := digit_head_facts c hcdig
      exact ⟨c, ds, hser, hws, hbr, hbc⟩
  | bool b => cases b <;> exact ⟨_, _, rfl, by decide⟩
  | null => exact ⟨'n', _, rfl, by decide⟩
  | str s => exact ⟨'"', _, rfl, by decide⟩
  | arr l => exact ⟨'[', _, rfl, by decide⟩
  | obj ps => exact ⟨'{', _, rfl, by decide⟩

/-- `keysNodup` is `List.Nodup`. -/
theorem keysNodup_iff (l : List (List Char)) :
    keysNodup l = true ↔ l.Nodup := by
  induction l with
  | nil => simp [keysNodup]
  | cons k t ih =>
    simp [keysNodup, List.nodup_cons, ih, List.elem_iff]

/-- Inserting a fresh key appends it. -/
theorem setKey_fresh (l : Record) (k : List Char) (v : Json)
    (h : ∀ k' ∈ l.map Prod.fst, k' ≠ k) : setKey l k v = l ++ [(k, v)] := by
  induction l with
  | nil => rfl
  | cons kv t ih =>
    obtain ⟨k', v'⟩ := kv
    have hk : k' ≠ k := h k' (by simp)
    have ht : ∀ k'' ∈ t.map Prod.fst, k'' ≠ k := fun k'' hm =>
      h k'' (by simp at hm ⊢; exact Or.inr hm)
    simp [setKey, hk, ih ht]

/-- Folding `setKey` over pairs with globally distinct keys just appends
them. -/
theorem foldl_setKey_eq (ps : List (List Char × Json)) :
    ∀ acc : Record, ((acc ++ ps).map Prod.fst).Nodup →
      ps.foldl (fun a kv => setKey a kv.1 kv.2) acc = acc ++ ps := by
  induction ps with
  | nil =>
    intro acc _
    simp
  | cons kv t ih =>
    intro acc hnd
    obtain ⟨k, v⟩ := kv
    have hmap : (acc ++ (k, v) :: t).map Prod.fst
        = acc.map Prod.fst ++ k :: t.map Prod.fst := by simp
    rw [hmap] at hnd
    have hfresh : ∀ k' ∈ acc.map Prod.fst, k' ≠ k := by
      intro k' hm he
      subst he
      rcases List.nodup_append.mp hnd with ⟨_, _, hdisj⟩
      exact hdisj hm (by simp)
    have hstep : setKey acc k v = acc ++ [(k, v)] := setKey_fresh acc k v hfresh
    show List.foldl _ (setKey acc k v) t = _
    rw [hstep, ih (acc ++ [(k, v)]) (by simpa using hnd)]
    simp

/-- Scanned object pairs with pairwise distinct keys survive `dict(pairs)`
unchanged. -/
theorem dictFromPairs_eq (ps : List (List Char × Json))
    (h : keysNodup (ps.map Prod.fst) = true) : dictFromPairs ps = ps := by
  have := foldl_setKey_eq ps [] (by simpa using (keysNodup_iff _).mp h)
  simpa [dictFromPairs] using this

/-- A serialized integer takes at least one character. -/
theorem serInt_length_pos (i : Int) : 1 ≤ (serInt i).length := by
  by_cases hi : i < 0
  · rw [serInt, if_pos hi]
    simp
  · rw [serInt, if_neg hi]
    obtain ⟨c, ds, hser, _, _, _⟩ := serNat_cons i.toNat
    rw [hser]
    simp

/-- The parser fuel a value needs is bounded by its serialized length (stated
for all sizes below a bound to recurse through the nested structure). -/
theorem serLen_all (N : Nat) :
    (∀ v, jsize v ≤ N → jsize v ≤ (serVal v).length)
    ∧ (∀ l, l ≠ [] → lsize l ≤ N → lsize l ≤ (serItems l).length + 1)
    ∧ (∀ ps, ps ≠ [] → psize ps ≤ N →
        psize ps ≤ (serPairs ps).length + 1) := by
  induction N with
  | zero =>
    refine ⟨fun v hv => ?_, fun l hne hl => ?_, fun ps hne hp => ?_⟩
    · have := jsize_pos v
      omega
    · cases l with
      | nil => exact absurd rfl hne
      | cons x xs => simp [lsize] at hl
    · cases ps with
      | nil => exact absurd rfl hne
      | cons kv t =>
        obtain ⟨k, v⟩ := kv
        simp [psize] at hp
  | succ N ih =>
    obtain ⟨ihV, ihL, ihP⟩ := ih
    refine ⟨fun v hv => ?_, fun l hne hl => ?_, fun ps hne hp => ?_⟩
    · cases v with
      | null => simp [jsize, serVal]
      | bool b => cases b <;> simp [jsize, serVal]
      | num i =>
        have := serInt_length_pos i
        simp only [jsize, serVal]
        omega
      | str s => simp [jsize, serVal]
      | arr l =>
        cases l with
        | nil => simp [jsize, lsize, serVal, serItems]
        | cons x xs =>
          have h1 : lsize (x :: xs) ≤ N := by
            simp only [jsize] at hv
            omega
          have := ihL (x :: xs) (by simp) h1
          simp only [jsize, serVal, List.length_append, List.length_cons]
          simp at this ⊢
          omega
      | obj ps =>
        cases ps with
        | nil => simp [jsize, psize, serVal, serPairs]
        | cons kv t =>
          have h1 : psize (kv :: t) ≤ N := by
            simp only [jsize] at hv
            omega
          have := ihP (kv :: t) (by simp) h1
          simp only [jsize, serVal, List.length_append, List.length_cons]
          simp at this ⊢
          omega
    · cases l with
      | nil => exact absurd rfl hne
      | cons x xs =>
        cases xs with
        | nil =>
          have hx : jsize x ≤ N := by
            simp [lsize] at hl
            omega
          have := ihV x hx
          simp [lsize, serItems, lsize]
          omega
        | cons y ys =>
          have hly : 1 ≤ lsize (y :: ys) := lsize_pos y ys
          have hx : jsize x ≤ N := by
            simp [lsize] at hl ⊢
            omega
          have hys : lsize (y :: ys) ≤ N := by
            have := jsize_pos x
            simp [lsize] at hl ⊢
            omega
          have h1 := ihV x hx
          have h2 := ihL (y :: ys) (by simp) hys
          show lsize (x :: y :: ys) ≤ (serVal x ++ ',' :: ' ' ::
            serItems (y :: ys)).length + 1
          simp only [lsize, List.length_append, List.length_cons]
          simp [lsize] at h2 ⊢
          omega
    · cases ps with
      | nil => exact absurd rfl hne
      | cons kv t =>
        obtain ⟨k, v⟩ := kv
        cases t with
        | nil =>
          have hx : jsize v ≤ N := by
            simp [psize] at hp
            omega
          have := ihV v hx
          show psize [(k, v)] ≤ ('"' :: escString k ++ '"' :: ':' :: ' ' ::
            serVal v).length + 1
          simp [psize]
          omega
        | cons p t' =>
          have hpt : 1 ≤ psize (p :: t') := by
            obtain ⟨k', v'⟩ := p
            simp [psize]
            omega
          have hx : jsize v ≤ N := by
            simp [psize] at hp
            omega
          have ht' : psize (p :: t') ≤ N := by
            have := jsize_pos v
            simp [psize] at hp ⊢
            omega
          have h1 := ihV v hx
          have h2 := ihP (p :: t') (by simp) ht'
          show psize ((k, v) :: p :: t') ≤ ('"' :: escString k ++ '"' :: ':'
            :: ' ' :: serVal v ++ ',' :: ' ' :: serPairs (p :: t')).length + 1
          simp only [psize, List.length_append, List.length_cons]
          simp [psize] at h2 ⊢
          omega

/-- The encoder escapes every newline, so one never appears raw in an
escaped character. -/
theorem escapeChar_no_nl (c : Char) : '\n' ∉ escapeChar c := by
  have hhex : ∀ m, m < 16 → hexDig m ≠ '\n' := by decide
  unfold escapeChar
  split_ifs with h1 h2 h3 h4 h5 h6 h7 h8
  · decide
  · decide
  · decide
  · decide
  · decide
  · decide
  · decide
  · intro hm
    have hhi := hhex (c.toNat / 16) (by omega)
    have hlo := hhex (c.toNat % 16) (by omega)
    simp only [List.mem_cons, List.not_mem_nil, or_false] at hm
    rcases hm with h | h | h | h | h | h <;>
      first
      | exact absurd h.symm (by decide)
      | exact hhi h.symm
      | exact hlo h.symm
  · intro hm
    rw [List.mem_singleton] at hm
    subst hm
    exact h8 (by decide)

/-- No raw newline in an escaped string body. -/
theorem escString_no_nl (s : List Char) : '\n' ∉ escString s := by
  induction s with
  | nil => simp [escString]
  | cons c t ih =>
    rw [escString]
    intro hm
    rcases List.mem_append.mp hm with h | h
    · exact escapeChar_no_nl c h
    · exact ih h

/-- No newline in a serialized integer. -/
theorem serInt_no_nl (i : Int) : '\n' ∉ serInt i := by
  have hnat : ∀ n : Nat, '\n' ∉ serNat n := by
    intro n hm
    have hd := natDigitsRev_digits n '\n' (List.mem_reverse.mp hm)
    exact absurd hd (by decide)
  by_cases hi : i < 0
  · rw [serInt, if_pos hi]
    intro hm
    rcases List.mem_cons.mp hm with h | h
    · exact absurd h (by decide)
    · exact hnat i.natAbs h
  · rw [serInt, if_neg hi]
    exact hnat i.toNat

/-- No serialized value, item list or pair list contains a raw newline: the
one-entity-per-line file format is well defined. -/
theorem serNl_all (N : Nat) :
    (∀ v, jsize v ≤ N → '\n' ∉ serVal v)
    ∧ (∀ l, lsize l ≤ N → '\n' ∉ serItems l)
    ∧ (∀ ps, psize ps ≤ N → '\n' ∉ serPairs ps) := by
  induction N with
  | zero =>
    refine ⟨fun v hv => ?_, fun l hl => ?_, fun ps hp => ?_⟩
    · have := jsize_pos v
      omega
    · cases l with
      | nil => simp [serItems]
      | cons x xs => simp [lsize] at hl
    · cases ps with
      | nil => simp [serPairs]
      | cons kv t =>
        obtain ⟨k, v⟩ := kv
        simp [psize] at hp
  | succ N ih =>
    obtain ⟨ihV, ihL, ihP⟩ := ih
    refine ⟨fun v hv => ?_, fun l hl => ?_, fun ps hp => ?_⟩
    · cases v with
      | null => decide
      | bool b => cases b <;> decide
      | num i => exact serInt_no_nl i
      | str s =>
        show '\n' ∉ '"' :: escString s ++ ['"']
        intro hm
        simp at hm
        exact escString_no_nl s hm
      | arr l =>
        have hl : lsize l ≤ N := by
          simp only [jsize] at hv
          omega
        show '\n' ∉ '[' :: serItems l ++ [']']
        intro hm
        simp at hm
        exact ihL l hl hm
      | obj ps =>
        have hp : psize ps ≤ N := by
          simp only [jsize] at hv
          omega
        show '\n' ∉ '{' :: serPairs ps ++ ['}']
        intro hm
        simp at hm
        exact ihP ps hp hm
    · cases l with
      | nil => simp [serItems]
      | cons x xs =>
        have hx : jsize x ≤ N := by
          simp [lsize] at hl
          omega
        cases xs with
        | nil => exact ihV x hx
        | cons y ys =>
          have hys : lsize (y :: ys) ≤ N := by
            have := jsize_pos x
            simp [lsize] at hl ⊢
            omega
          show '\n' ∉ serVal x ++ ',' :: ' ' :: serItems (y :: ys)
          intro hm
          simp at hm
          rcases hm with h | h
          · exact ihV x hx h
          · exact ihL (y :: ys) hys h
    · cases ps with
      | nil => simp [serPairs]
      | cons kv t =>
        obtain ⟨k, v⟩ := kv
        have hx : jsize v ≤ N := by
          simp [psize] at hp
          omega
        cases t with
        | nil =>
          show '\n' ∉ '"' :: escString k ++ '"' :: ':' :: ' ' :: serVal v
          intro hm
          simp at hm
          rcases hm with h | h
          · exact escString_no_nl k h
          · exact ihV v hx h
        | cons p t' =>
          have ht' : psize (p :: t') ≤ N := by
            have := jsize_pos v
            simp [psize] at hp ⊢
            omega
          show '\n' ∉ '"' :: escString k ++ '"' :: ':' :: ' ' :: serVal v
            ++ ',' :: ' ' :: serPairs (p :: t')
          intro hm
          simp at hm
          rcases hm with h | h | h
          · exact escString_no_nl k h
          · exact ihV v hx h
          · exact ihP (p :: t') ht' h

/-- Scanning a serialized value (or array item list, or object pair list)
with enough fuel reads back exactly that value, leaving the continuation
untouched: `json.loads` inverts `json.dumps` on the modelled fragment. -/
theorem parse_ser_all (fuel : Nat) :
    (∀ v rest, jsize v ≤ fuel → WFb v = true → numStopB rest = true →
        parseVal fuel (serVal v ++ rest) = some (v, rest))
    ∧ (∀ l rest, l ≠ [] → lsize l ≤ fuel → WFbList l = true →
        parseItems fuel (serItems l ++ ']' :: rest) = some (l, rest))
    ∧ (∀ ps rest, ps ≠ [] → psize ps ≤ fuel → WFbPairs ps = true →
        parsePairs fuel (serPairs ps ++ '}' :: rest) = some (ps, rest)) := by
  induction fuel with
  | zero =>
    refine ⟨fun v rest hsz _ _ => ?_, fun l rest hne hsz _ => ?_,
      fun ps rest hne hsz _ => ?_⟩
    · have := jsize_pos v
      omega
    · cases l with
      | nil => exact absurd rfl hne
      | cons x xs => simp [lsize] at hsz
    · cases ps with
      | nil => exact absurd rfl hne
      | cons kv t =>
        obtain ⟨k, v⟩ := kv
        simp [psize] at hsz
  | succ f ih =>
    obtain ⟨ihV, ihL, ihP⟩ := ih
    refine ⟨fun v rest hsz hwf hstop => ?_, fun l rest hne hsz hwf => ?_,
      fun ps rest hne hsz hwf => ?_⟩
    · cases v with
      | null =>
        show parseVal (f + 1) (serVal .null ++ rest) = some (.null, rest)
        simp [serVal, parseVal, skipWs, isJsonWs]
      | bool b =>
        cases b with
        | true =>
          show parseVal (f + 1) (serVal (.bool true) ++ rest)
            = some (.bool true, rest)
          simp [serVal, parseVal, skipWs, isJsonWs]
        | false =>
          show parseVal (f + 1) (serVal (.bool false) ++ rest)
            = some (.bool false, rest)
          simp [serVal, parseVal, skipWs, isJsonWs]
      | num i =>
        show parseVal (f + 1) (serVal (.num i) ++ rest) = some (.num i, rest)
        have hpn : parseNum (serInt i ++ rest) = some (i, rest) :=
          parseNum_serInt i rest hstop
        have hser : serVal (.num i) = serInt i := by simp [serVal]
        rw [hser]
        by_cases hi : i < 0
        · rw [serInt, if_pos hi, List.cons_append] at hpn ⊢
          rw [parseVal_succ_num f '-' _ (Or.inr rfl) (by decide), hpn]
        · obtain ⟨c, ds, hsn, hcdig, _, _⟩ := serNat_cons i.toNat
          obtain ⟨hws, _, _, _⟩ := digit_head_facts c hcdig
          rw [serInt, if_neg hi, hsn, List.cons_append] at hpn ⊢
          rw [parseVal_succ_num f c _ (Or.inl hcdig) hws, hpn]
      | str s =>
        show parseVal (f + 1) (serVal (.str s) ++ rest) = some (.str s, rest)
        have h1 : serVal (.str s) ++ rest
            = '"' :: (escString s ++ '"' :: rest) := by
          simp [serVal]
        have h2 := skipWs_cons_false '"' (escString s ++ '"' :: rest)
          (by decide)
        rw [h1]
        simp [parseVal, h2, parseStringBody_escString]
      | arr l =>
        cases l with
        | nil =>
          show parseVal (f + 1) (serVal (.arr []) ++ rest)
            = some (.arr [], rest)
          simp [serVal, serItems, parseVal, skipWs, isJsonWs]
        | cons x xs =>
          have hl : lsize (x :: xs) ≤ f := by
            simp only [jsize] at hsz
            omega
          have hwl : WFbList (x :: xs) = true := by
            simpa [WFb] using hwf
          obtain ⟨c, t0, hhead, hcws, hcbr, _⟩ := serVal_head x
          obtain ⟨T, hT⟩ : ∃ T, serItems (x :: xs) = c :: T := by
            cases xs with
            | nil => exact ⟨t0, by simp [serItems, hhead]⟩
            | cons y ys =>
              exact ⟨t0 ++ ',' :: ' ' :: serItems (y :: ys),
                by simp [serItems, hhead]⟩
          have hshape : serVal (.arr (x :: xs)) ++ rest
              = '[' :: (serItems (x :: xs) ++ ']' :: rest) := by
            simp [serVal]
          have hsk : skipWs (serItems (x :: xs) ++ ']' :: rest)
              = serItems (x :: xs) ++ ']' :: rest := by
            rw [hT, List.cons_append, skipWs_cons_false c _ hcws]
          rw [hshape]
          simp only [parseVal]
          rw [skipWs_cons_false '[' _ (by decide)]
          show (match skipWs (serItems (x :: xs) ++ ']' :: rest) with
            | ']' :: r2 => some (Json.arr [], r2)
            | _ =>
              match parseItems f (serItems (x :: xs) ++ ']' :: rest) with
              | some (l, r2) => some (Json.arr l, r2)
              | none => none) = some (Json.arr (x :: xs), rest)
          rw [hsk]
          split
          · rename_i he
            rw [hT, List.cons_append] at he
            injection he with h1 _
            exact absurd h1 hcbr
          · rw [ihL (x :: xs) rest (by simp) hl hwl]
      | obj ps =>
        cases ps with
        | nil =>
          show parseVal (f + 1) (serVal (.obj []) ++ rest)
            = some (.obj [], rest)
          simp [serVal, serPairs, parseVal, skipWs, isJsonWs]
        | cons kv t =>
          obtain ⟨k, v⟩ := kv
          have hl : psize ((k, v) :: t) ≤ f := by
            simp only [jsize] at hsz
            omega
          have hwf2 : keysNodup (((k, v) :: t).map Prod.fst) = true
              ∧ WFbPairs ((k, v) :: t) = true := by
            have := hwf
            simp [WFb] at this
            exact this
          obtain ⟨T, hT⟩ : ∃ T, serPairs ((k, v) :: t) = '"' :: T := by
            cases t with
            | nil =>
              exact ⟨escString k ++ '"' :: ':' :: ' ' :: serVal v,
                by simp [serPairs]⟩
            | cons p t' =>
              exact ⟨escString k ++ '"' :: ':' :: ' ' :: serVal v
                  ++ ',' :: ' ' :: serPairs (p :: t'),
                by simp [serPairs]⟩
          have hshape : serVal (.obj ((k, v) :: t)) ++ rest
              = '{' :: (serPairs ((k, v) :: t) ++ '}' :: rest) := by
            simp [serVal]
          have hsk : skipWs (serPairs ((k, v) :: t) ++ '}' :: rest)
              = serPairs ((k, v) :: t) ++ '}' :: rest := by
            rw [hT, List.cons_append, skipWs_cons_false '"' _ (by decide)]
          rw [hshape]
          simp only [parseVal]
          rw [skipWs_cons_false '{' _ (by decide)]
          show (match skipWs (serPairs ((k, v) :: t) ++ '}' :: rest) with
            | '}' :: r2 => some (Json.obj [], r2)
            | _ =>
              match parsePairs f (serPairs ((k, v) :: t) ++ '}' :: rest) with
              | some (ps2, r2) => some (Json.obj (dictFromPairs ps2), r2)
              | none => none) = some (Json.obj ((k, v) :: t), rest)
          rw [hsk]
          split
          · rename_i he
            rw [hT, List.cons_append] at he
            injection he with h1 _
            exact absurd h1 (by decide)
          · rw [ihP ((k, v) :: t) rest (by simp) hl hwf2.2]
            show some (Json.obj (dictFromPairs ((k, v) :: t)), rest)
              = some (Json.obj ((k, v) :: t), rest)
            rw [dictFromPairs_eq _ hwf2.1]
    · cases l with
      | nil => exact absurd rfl hne
      | cons x xs =>
        have hx : jsize x ≤ f := by
          simp [lsize] at hsz
          omega
        have hwx : WFb x = true ∧ WFbList xs = true := by
          simpa [WFbList] using hwf
        cases xs with
        | nil =>
          have hpv := ihV x (']' :: rest) hx hwx.1 rfl
          show parseItems (f + 1) (serItems [x] ++ ']' :: rest)
            = some ([x], rest)
          have hit : serItems [x] = serVal x := by simp [serItems]
          rw [hit]
          simp only [parseItems, hpv]
          rw [skipWs_cons_false ']' rest (by decide)]
          rfl
        | cons y ys =>
          have hys : lsize (y :: ys) ≤ f := by
            have := jsize_pos x
            simp [lsize] at hsz ⊢
            omega
          have hshape : serItems (x :: y :: ys) ++ ']' :: rest
              = serVal x ++ ',' :: ' ' :: (serItems (y :: ys)
                  ++ ']' :: rest) := by
            simp [serItems]
          have hpv := ihV x
            (',' :: ' ' :: (serItems (y :: ys) ++ ']' :: rest)) hx hwx.1 rfl
          rw [hshape]
          simp only [parseItems, hpv]
          rw [skipWs_cons_false ','
            (' ' :: (serItems (y :: ys) ++ ']' :: rest)) (by decide)]
          show (match parseItems f (' ' :: (serItems (y :: ys)
              ++ ']' :: rest)) with
            | some (l, r3) => some (x :: l, r3)
            | none => none) = some (x :: y :: ys, rest)
          rw [parseItems_ws, ihL (y :: ys) rest (by simp) hys hwx.2]
    · cases ps with
      | nil => exact absurd rfl hne
      | cons kv t =>
        obtain ⟨k, v⟩ := kv
        have hx : jsize v ≤ f := by
          simp [psize] at hsz
          omega
        have hwx : WFb v = true ∧ WFbPairs t = true := by
          simpa [WFbPairs] using hwf
        cases t with
        | nil =>
          have hshape : serPairs [(k, v)] ++ '}' :: rest
              = '"' :: (escString k ++ '"' :: ':' :: ' '
                  :: (serVal v ++ '}' :: rest)) := by
            simp [serPairs]
          have hpb := parseStringBody_escString k
            (':' :: ' ' :: (serVal v ++ '}' :: rest))
          have hpv := ihV v ('}' :: rest) hx hwx.1 rfl
          have hpw : parseVal f (' ' :: (serVal v ++ '}' :: rest))
              = some (v, '}' :: rest) := by
            rw [parseVal_ws]
            exact hpv
          have hs1 : skipWs (':' :: ' ' :: (serVal v ++ '}' :: rest))
              = ':' :: ' ' :: (serVal v ++ '}' :: rest) :=
            skipWs_cons_false ':' _ (by decide)
          have hs2 : skipWs ('}' :: rest) = '}' :: rest :=
            skipWs_cons_false '}' _ (by decide)
          rw [hshape]
          simp only [parsePairs]
          rw [skipWs_cons_false '"' _ (by decide)]
          simp only [hpb, hs1, hpw, hs2]
        | cons p t' =>
          obtain ⟨pk, pv⟩ := p
          have hpt : psize ((pk, pv) :: t') ≤ f := by
            have := jsize_pos v
            simp [psize] at hsz ⊢
            omega
          have hshape : serPairs ((k, v) :: (pk, pv) :: t') ++ '}' :: rest
              = '"' :: (escString k ++ '"' :: ':' :: ' '
                  :: (serVal v ++ ',' :: ' '
                    :: (serPairs ((pk, pv) :: t') ++ '}' :: rest))) := by
            simp [serPairs]
          have hpb := parseStringBody_escString k
            (':' :: ' ' :: (serVal v ++ ',' :: ' '
              :: (serPairs ((pk, pv) :: t') ++ '}' :: rest)))
          have hpv := ihV v
            (',' :: ' ' :: (serPairs ((pk, pv) :: t') ++ '}' :: rest))
            hx hwx.1 rfl
          have hpw : parseVal f (' ' :: (serVal v ++ ',' :: ' '
              :: (serPairs ((pk, pv) :: t') ++ '}' :: rest)))
              = some (v, ',' :: ' '
                  :: (serPairs ((pk, pv) :: t') ++ '}' :: rest)) := by
            rw [parseVal_ws]
            exact hpv
          have hpp : parsePairs f (' ' :: (serPairs ((pk, pv) :: t')
              ++ '}' :: rest)) = some ((pk, pv) :: t', rest) := by
            rw [parsePairs_ws]
            exact ihP ((pk, pv) :: t') rest (by simp) hpt hwx.2
          have hs1 : skipWs (':' :: ' ' :: (serVal v ++ ',' :: ' '
              :: (serPairs ((pk, pv) :: t') ++ '}' :: rest)))
              = ':' :: ' ' :: (serVal v ++ ',' :: ' '
                  :: (serPairs ((pk, pv) :: t') ++ '}' :: rest)) :=
            skipWs_cons_false ':' _ (by decide)
          have hs2 : skipWs (',' :: ' '
              :: (serPairs ((pk, pv) :: t') ++ '}' :: rest))
              = ',' :: ' ' :: (serPairs ((pk, pv) :: t') ++ '}' :: rest) :=
            skipWs_cons_false ',' _ (by decide)
          rw [hshape]
          simp only [parsePairs]
          rw [skipWs_cons_false '"' _ (by decide)]
          simp only [hpb, hs1, hpw, hs2, hpp]

/-- Stripping does nothing to a line that starts and ends with
non-whitespace. -/
theorem stripChars_sandwich (a : Char) (m : List Char) (b : Char)
    (ha : isPySpace a = false) (hb : isPySpace b = false) :
    stripChars (a :: (m ++ [b])) = a :: (m ++ [b]) := by
  have h1 : (a :: (m ++ [b])).dropWhile isPySpace = a :: (m ++ [b]) := by
    simp [List.dropWhile_cons, ha]
  rw [stripChars, h1]
  have h2 : (a :: (m ++ [b])).reverse = b :: (a :: m).reverse := by
    simp
  rw [h2]
  simp [List.dropWhile_cons, hb]

/-- `json.loads` inverts the serializer on one whole line. -/
theorem jsonLoads_serVal (e : Json) (hwf : WFb e = true) :
    jsonLoads (serVal e) = some e := by
  have hlen := (serLen_all (jsize e)).1 e le_rfl
  have h := (parse_ser_all ((serVal e).length + 1)).1 e [] (by omega) hwf rfl
  rw [List.append_nil] at h
  rw [jsonLoads, h]
  rfl

/-- One written line of an object entity loads back as exactly that
entity. -/
theorem parseLine_serVal_obj (ps : List (List Char × Json))
    (hwf : WFb (Json.obj ps) = true) :
    parseLine (serVal (Json.obj ps)) = some (Json.obj ps) := by
  have hshape : serVal (Json.obj ps) = '{' :: (serPairs ps ++ ['}']) := by
    simp [serVal]
  have hstrip : stripChars (serVal (Json.obj ps)) = serVal (Json.obj ps) := by
    rw [hshape]
    exact stripChars_sandwich '{' _ '}' (by decide) (by decide)
  simp only [parseLine, hstrip]
  rw [if_neg (by rw [hshape]; simp)]
  exact jsonLoads_serVal _ hwf

/-- Writing any list of well-formed entity mappings with `_write_ndjson` and
loading the resulting file with `_load_ndjson` returns the same list, element
for element, in order (claim C1). -/
theorem write_load_roundtrip (es : List Json)
    (h : ∀ e ∈ es, (∃ ps, e = Json.obj ps) ∧ WFb e = true) :
    loadNdjson (writeNdjson es) = es := by
  induction es with
  | nil => rfl
  | cons e t ih =>
    obtain ⟨⟨ps, hps⟩, hwf⟩ := h e (List.mem_cons_self e t)
    have hnl : '\n' ∉ serVal e := (serNl_all (jsize e)).1 e le_rfl
    show (splitLines (serVal e ++ '\n' :: writeNdjson t)).filterMap parseLine
      = e :: t
    rw [splitLines_append _ _ hnl, List.filterMap_cons]
    subst hps
    rw [parseLine_serVal_obj ps hwf]
    have ht := ih fun e' he' => h e' (List.mem_cons_of_mem _ he')
    rw [show (splitLines (writeNdjson t)).filterMap parseLine
      = loadNdjson (writeNdjson t) from rfl, ht]

/-- Witness for claim C1: a two-entity file (one domain-like record and one
empty record) round-trips through write-then-load. -/
theorem write_load_roundtrip_witness :
    loadNdjson (writeNdjson
        [Json.obj [(strL "name", .str (strL "d1")), (strL "id", .num 7)],
         Json.obj []])
      = [Json.obj [(strL "name", .str (strL "d1")), (strL "id", .num 7)],
         Json.obj []] :=
  write_load_roundtrip
    [Json.obj [(strL "name", .str (strL "d1")), (strL "id", .num 7)],
     Json.obj []]
    (by
      intro e he
      rcases List.mem_cons.mp he with rfl | he2
      · exact ⟨⟨_, rfl⟩, rfl⟩
      · rcases List.mem_cons.mp he2 with rfl | he3
        · exact ⟨⟨_, rfl⟩, rfl⟩
        · cases he3)

end OmdMigrate
